import Mathlib

set_option maxRecDepth 8000

/-!
Shallow embedding of the abbreviated 5-bit Baudot codec
(src/main.py, src/V1.2.py, src/V1.3.py, src/1.5/1.53.py, src/1.5/1.54.py).

Bit strings are modelled as `List Char` over the characters '0'/'1', exactly
as the Python scripts manipulate them; byte values are `Nat` (file bytes are
always < 256).  File reads/writes and console printing are modelled by
passing byte lists in and returning results; a Python exception or a
"not found" print becomes `none`.
-/

/-- First-match association-list lookup.  It models Python `dict` indexing
    (`d[k]` / `d.get(k)`) for dictionaries that are built without duplicate
    keys, which is the case for every table in these scripts. -/
def dictGet {α β : Type} [DecidableEq α] : List (α × β) → α → Option β
  | [], _ => none
  | (k, v) :: rest, c => if c = k then some v else dictGet rest c

/-- Model of `BAUDOT_TABLE` from src/main.py lines 2-11 (byte-identical in all other
    generations): character to 5-bit code, codes written as bit characters. -/
def BAUDOT_TABLE : List (Char × List Char) := [
  ('a', ['0','0','0','1','1']), ('b', ['1','1','0','0','1']),
  ('c', ['0','1','1','1','0']), ('d', ['0','1','0','0','1']),
  ('e', ['0','0','0','0','1']), ('f', ['0','1','1','0','1']),
  ('g', ['1','1','0','1','0']), ('h', ['1','0','1','0','0']),
  ('i', ['0','0','1','1','0']), ('j', ['0','1','0','1','1']),
  ('k', ['0','1','1','1','1']), ('l', ['1','0','0','1','0']),
  ('m', ['1','1','1','0','0']), ('n', ['0','1','1','0','0']),
  ('o', ['1','1','0','0','0']), ('p', ['1','0','1','1','0']),
  ('q', ['1','0','1','1','1']), ('r', ['0','1','0','1','0']),
  ('s', ['0','0','1','0','1']), ('t', ['1','0','0','0','0']),
  ('u', ['0','0','1','1','1']), ('v', ['1','1','1','1','0']),
  ('w', ['1','0','0','1','1']), ('x', ['1','1','1','0','1']),
  ('y', ['1','0','1','0','1']), ('z', ['1','0','0','0','1']),
  (' ', ['0','0','1','0','0']),
  ('1', ['0','0','0','1','0']), ('2', ['1','1','0','1','1']),
  ('3', ['1','1','1','1','1'])]

/-- Model of the comprehension building `REVERSE_TABLE` (src/main.py
    line 13).  The codes are pairwise distinct, so the comprehension never
    overwrites an entry and first-match lookup agrees with the Python dict. -/
def REVERSE_TABLE : List (List Char × Char) :=
  BAUDOT_TABLE.map (fun p => (p.2, p.1))

/-- Model of `STOP_WORD` (src/main.py line 15). -/
def STOP_WORD : List Char := ['s', 't', 'o', 'p']

/-- Python `int(s, 2)` applied to a string of bit characters. -/
def bitsToNat (l : List Char) : Nat :=
  l.foldl (fun acc c => 2 * acc + (if c = '1' then 1 else 0)) 0

/-- Minimal binary representation, most significant bit first, accumulator
    form.  The first argument is fuel; since the value halves on every step,
    fuel `n` is always enough for value `n`. -/
def natToBinAux : Nat → Nat → List Char → List Char
  | 0, _, acc => acc
  | fuel + 1, n, acc =>
    if n = 0 then acc
    else natToBinAux fuel (n / 2) ((if n % 2 = 1 then '1' else '0') :: acc)

/-- Minimal binary representation of `n` (`"0"` for zero). -/
def natToBin (n : Nat) : List Char :=
  if n = 0 then ['0'] else natToBinAux n n []

/-- Python `f'{byte:08b}'`: binary representation left-padded with '0' to a
    minimum width of 8. -/
def byteToBits (b : Nat) : List Char :=
  List.replicate (8 - (natToBin b).length) '0' ++ natToBin b

/-- Model of `bytes_to_bits` (src/main.py lines 33-34, identical at
    src/1.5/1.53.py lines 131-132): each byte expands to its 8-bit binary
    representation, concatenated in order. -/
def bytes_to_bits (byteData : List Nat) : List Char :=
  byteData.foldr (fun b acc => byteToBits b ++ acc) []

/-- Grouping loop of `bits_to_bytes`: after padding, take the bit string in
    8-character groups and convert each with `int(_, 2)`.  The input length
    is always a multiple of 8, so the fall-through arm only sees `[]`. -/
def bytesOfBitsGo : List Char → List Nat
  | b1 :: b2 :: b3 :: b4 :: b5 :: b6 :: b7 :: b8 :: rest =>
    bitsToNat [b1, b2, b3, b4, b5, b6, b7, b8] :: bytesOfBitsGo rest
  | _ => []

/-- Model of `bits_to_bytes` (src/main.py lines 19-29): right-pad with '0' until the
    length is a multiple of 8 (the `while` loop appends
    `(8 - len % 8) % 8` zeros), then group into bytes MSB-first. -/
def bits_to_bytes (bitstring : List Char) : List Nat :=
  bytesOfBitsGo (bitstring ++ List.replicate ((8 - bitstring.length % 8) % 8) '0')

/-- The encoding loop shared by `encode_to_file` (src/main.py lines 40-48)
    and `build_encoded_bytes` (src/1.5/1.53.py lines 169-175): concatenate
    the table code of every character; a character outside the table raises
    (`ValueError` in main.py, `KeyError` in 1.53), modelled as `none`. -/
def encChars : List Char → Option (List Char)
  | [] => some []
  | c :: rest =>
    match dictGet BAUDOT_TABLE c, encChars rest with
    | some code, some bits => some (code ++ bits)
    | _, _ => none

/-- Model of `encode_to_file` (src/main.py lines 37-55) with the file write modelled
    as the returned byte list: encode the message, append the codes of
    `STOP_WORD`, pack to bytes. -/
def encode_to_file (message : List Char) : Option (List Nat) :=
  match encChars message, encChars STOP_WORD with
  | some mb, some sb => some (bits_to_bytes (mb ++ sb))
  | _, _ => none

/-- Model of `build_encoded_bytes` (src/1.5/1.53.py lines 169-175): it performs exactly
    the same computation as `encode_to_file` without the file write. -/
def build_encoded_bytes : List Char → Option (List Nat) :=
  encode_to_file

/-- The 5-bit sliding-window scan of `decode_from_file` (src/main.py
    lines 64-88, identically src/1.5/1.53.py lines 224-243).  A first
    argument with fewer than five characters is the `len(chunk) < 5` break
    followed by the "Stop word not found" report, modelled as `none`. -/
def decodeLoop : List Char → List Char → List Char → Option (List Char)
  | b1 :: b2 :: b3 :: b4 :: b5 :: rest, decoded, stopBuf =>
    match dictGet REVERSE_TABLE [b1, b2, b3, b4, b5] with
    | none => decodeLoop rest decoded stopBuf
    | some c =>
      let decoded2 := decoded ++ [c]
      let sb1 := stopBuf ++ [c]
      let sb2 := if STOP_WORD.length < sb1.length then
          sb1.drop (sb1.length - STOP_WORD.length) else sb1
      if sb2 = STOP_WORD then
        some (decoded2.take (decoded2.length - STOP_WORD.length))
      else decodeLoop rest decoded2 sb2
  | _, _, _ => none

/-- Model of `decode_from_file` (src/main.py lines 58-88) with the file read modelled
    as the input byte list and the printed message as the returned value. -/
def decode_from_file (byteData : List Nat) : Option (List Char) :=
  decodeLoop (bytes_to_bits byteData) [] []

/-- Python `str.split()` whitespace test (ASCII whitespace characters). -/
def pyIsSpace (c : Char) : Bool :=
  c == ' ' || c == '\t' || c == '\n' || c == '\r' || c == '\x0b' || c == '\x0c'

/-- Accumulator loop for `str.split()`: split on whitespace runs, dropping
    empty tokens; `cur` holds the current word reversed. -/
def pySplitGo : List Char → List Char → List (List Char)
  | [], cur => if cur.isEmpty then [] else [cur.reverse]
  | c :: rest, cur =>
    if pyIsSpace c then
      if cur.isEmpty then pySplitGo rest [] else cur.reverse :: pySplitGo rest []
    else pySplitGo rest (c :: cur)

/-- Python `message.split()`. -/
def pySplit (s : List Char) : List (List Char) := pySplitGo s []

/-- Python `" ".join(words)`. -/
def joinWords : List (List Char) → List Char
  | [] => []
  | [w] => w
  | w :: ws => w ++ ' ' :: joinWords ws

/-- Model of `apply_shortcuts_decode` (src/1.5/1.53.py lines 138-140).  The global
    `REVERSE_SHORTCUTS`, built from the external `abv.txt` at startup, is a
    parameter; `REVERSE_SHORTCUTS.get(word, word)` is `(dictGet _ w).getD w`. -/
def apply_shortcuts_decode (revShortcuts : List (List Char × List Char))
    (message : List Char) : List Char :=
  joinWords ((pySplit message).map (fun w => (dictGet revShortcuts w).getD w))

/-- Model of `decode_from_file` (src/1.5/1.53.py lines 213-243).  zlib is an external
    library, modelled by the parameter `dec`; `try: byte_data =
    zlib.decompress(byte_data) except: pass` keeps the original bytes when
    `dec` returns `none`. -/
def decode_from_file_v153 (dec : List Nat → Option (List Nat))
    (revShortcuts : List (List Char × List Char)) (byteData : List Nat) :
    Option (List Char) :=
  let byteData2 := match dec byteData with | some d => d | none => byteData
  (decodeLoop (bytes_to_bits byteData2) [] []).map (apply_shortcuts_decode revShortcuts)

/-- Loop of `validate_message` (src/V1.3.py lines 52-70, identically
    src/1.5/1.53.py lines 142-155) with the `line`/`column` counters as
    arguments.  `Char.isUpper` is the ASCII restriction of Python
    `str.isupper` on a single character. -/
def validateGo : List Char → Nat → Nat → List (Nat × Nat × Char × String)
  | [], _, _ => []
  | c :: rest, line, column =>
    if c = '\n' then validateGo rest (line + 1) 1
    else if c.isUpper then
      (line, column, c, "Uppercase character not allowed") :: validateGo rest line (column + 1)
    else if (dictGet BAUDOT_TABLE c).isNone then
      (line, column, c, "Invalid character") :: validateGo rest line (column + 1)
    else validateGo rest line (column + 1)

/-- Model of `validate_message` (src/V1.3.py lines 52-70): line and column both start
    at 1. -/
def validate_message (message : List Char) : List (Nat × Nat × Char × String) :=
  validateGo message 1 1

/-- Python `str.strip()` restricted to ASCII whitespace. -/
def pyStrip (l : List Char) : List Char :=
  ((l.dropWhile pyIsSpace).reverse.dropWhile pyIsSpace).reverse

/-- Python `str.islower()` restricted to ASCII: at least one cased character
    and no uppercase one. -/
def pyIsLower (l : List Char) : Bool :=
  l.any (fun c => c.isLower) && l.all (fun c => !c.isUpper)

/-- Model of `line.strip().replace("\r", "")` at the top of the `load_shortcuts`
    line loop (src/1.5/1.53.py line 35). -/
def strippedLine (rawLine : List Char) : List Char :=
  (pyStrip rawLine).filter (fun c => c ≠ '\r')

/-- Model of the assignment to `full`, `line.split("=", 1)[0].strip().replace(" ", "")`
    (src/1.5/1.53.py lines 44-45): the part before the first `'='`. -/
def lineFull (line : List Char) : List Char :=
  (pyStrip (line.takeWhile (fun c => c ≠ '='))).filter (fun c => c ≠ ' ')

/-- Model of the assignment to `short`, `line.split("=", 1)[1].strip().replace(" ", "")`
    (src/1.5/1.53.py lines 44-46): the part after the first `'='`. -/
def lineShort (line : List Char) : List Char :=
  (pyStrip ((line.dropWhile (fun c => c ≠ '=')).tail)).filter (fun c => c ≠ ' ')

/-- One iteration of the `load_shortcuts` line loop (src/1.5/1.53.py
    lines 34-68).  A printed diagnostic followed by `continue` is modelled
    as returning the dictionary unchanged. -/
def processLine (shortcuts : List (List Char × List Char)) (rawLine : List Char) :
    List (List Char × List Char) :=
  if strippedLine rawLine = [] ∨ (strippedLine rawLine).head? = some '#' then shortcuts
  else if '=' ∉ strippedLine rawLine then shortcuts
  else if ¬ (pyIsLower (lineFull (strippedLine rawLine)) &&
      pyIsLower (lineShort (strippedLine rawLine))) then shortcuts
  else if ¬ (lineFull (strippedLine rawLine)).all
      (fun c => (dictGet BAUDOT_TABLE c).isSome) then shortcuts
  else if ¬ (lineShort (strippedLine rawLine)).all
      (fun c => (dictGet BAUDOT_TABLE c).isSome) then shortcuts
  else if (dictGet shortcuts (lineFull (strippedLine rawLine))).isSome then shortcuts
  else if lineShort (strippedLine rawLine) ∈ shortcuts.map Prod.snd then shortcuts
  else shortcuts ++ [(lineFull (strippedLine rawLine), lineShort (strippedLine rawLine))]

/-- Model of `load_shortcuts` (src/1.5/1.53.py lines 25-70) on the list of lines read
    from the abbreviation file (`enumerate(f, 1)` supplies the 1-based line
    numbers used only in the printed diagnostics). -/
def load_shortcuts (lines : List (List Char)) : List (List Char × List Char) :=
  lines.foldl processLine []

/-- The sliding window the decode scan maintains: the last
    `len(STOP_WORD)` characters appended so far. -/
def win (l : List Char) : List Char := l.drop (l.length - STOP_WORD.length)

/-- Early-exit position of the scan: walk the characters the decode loop is
    about to append and return the truncated message at the first point
    where the sliding window equals `STOP_WORD`. -/
def findStop (decoded : List Char) : List Char → Option (List Char)
  | [] => none
  | c :: cs =>
    if win (decoded ++ [c]) = STOP_WORD then
      some ((decoded ++ [c]).take ((decoded ++ [c]).length - STOP_WORD.length))
    else findStop (decoded ++ [c]) cs

/-- Decidable substring test: does `pat` occur contiguously inside `l`? -/
def containsSub (pat : List Char) : List Char → Bool
  | [] => pat.isEmpty
  | c :: rest => pat.isPrefixOf (c :: rest) || containsSub pat rest

/-- Number of newline characters in a list. -/
def nlCount (l : List Char) : Nat := (l.filter (fun c => c = '\n')).length

/-- Number of characters after the last newline of a list (the whole length
    when there is no newline). -/
def sinceNl (l : List Char) : Nat :=
  (l.reverse.takeWhile (fun c => c ≠ '\n')).length

/-- The 1-based line number of position `i` of a text: one more than the number
    of newlines before `i`. -/
def lineOf (text : List Char) (i : Nat) : Nat := 1 + nlCount (text.take i)

/-- The 1-based column number of position `i` of a text: one more than the
    number of characters between the last newline before `i` and `i`. -/
def colOf (text : List Char) (i : Nat) : Nat := sinceNl (text.take i) + 1

/-- The well-formedness invariant of the shortcut dictionary: distinct
    full words, distinct shortcuts, and both sides of every entry lowercase
    and made of symbol-table characters only. -/
def dictOK (d : List (List Char × List Char)) : Prop :=
  (d.map Prod.fst).Nodup ∧ (d.map Prod.snd).Nodup ∧
  ∀ p ∈ d, pyIsLower p.1 = true ∧ pyIsLower p.2 = true ∧
    (∀ c ∈ p.1, (dictGet BAUDOT_TABLE c).isSome = true) ∧
    (∀ c ∈ p.2, (dictGet BAUDOT_TABLE c).isSome = true)

/-! ### Bit packing: pack/unpack round trip -/

theorem byteToBits_bitsToNat (c : List Char) (hlen : c.length = 8)
    (hb : ∀ x ∈ c, x = '0' ∨ x = '1') :
    byteToBits (bitsToNat c) = c := by
  rcases c with _ | ⟨a1, c⟩
  · simp only [List.length_nil] at hlen; omega
  rcases c with _ | ⟨a2, c⟩
  · simp only [List.length_cons, List.length_nil] at hlen; omega
  rcases c with _ | ⟨a3, c⟩
  · simp only [List.length_cons, List.length_nil] at hlen; omega
  rcases c with _ | ⟨a4, c⟩
  · simp only [List.length_cons, List.length_nil] at hlen; omega
  rcases c with _ | ⟨a5, c⟩
  · simp only [List.length_cons, List.length_nil] at hlen; omega
  rcases c with _ | ⟨a6, c⟩
  · simp only [List.length_cons, List.length_nil] at hlen; omega
  rcases c with _ | ⟨a7, c⟩
  · simp only [List.length_cons, List.length_nil] at hlen; omega
  rcases c with _ | ⟨a8, c⟩
  · simp only [List.length_cons, List.length_nil] at hlen; omega
  rcases c with _ | ⟨a9, c⟩
  · rcases hb a1 (by simp) with rfl | rfl <;>
      rcases hb a2 (by simp) with rfl | rfl <;>
      rcases hb a3 (by simp) with rfl | rfl <;>
      rcases hb a4 (by simp) with rfl | rfl <;>
      rcases hb a5 (by simp) with rfl | rfl <;>
      rcases hb a6 (by simp) with rfl | rfl <;>
      rcases hb a7 (by simp) with rfl | rfl <;>
      rcases hb a8 (by simp) with rfl | rfl <;>
      decide
  · simp only [List.length_cons, List.length_nil] at hlen; omega

theorem bytes_to_bits_cons (b : Nat) (rest : List Nat) :
    bytes_to_bits (b :: rest) = byteToBits b ++ bytes_to_bits rest := rfl

theorem bytes_to_bits_bytesOfBitsGo (n : Nat) : ∀ l : List Char, l.length = n →
    (∀ x ∈ l, x = '0' ∨ x = '1') → l.length % 8 = 0 →
    bytes_to_bits (bytesOfBitsGo l) = l := by
  induction n using Nat.strong_induction_on with
  | _ n ih =>
    intro l hn hb h8
    rcases l with _ | ⟨b1, l⟩
    · rfl
    rcases l with _ | ⟨b2, l⟩
    · simp only [List.length_cons, List.length_nil] at h8; omega
    rcases l with _ | ⟨b3, l⟩
    · simp only [List.length_cons, List.length_nil] at h8; omega
    rcases l with _ | ⟨b4, l⟩
    · simp only [List.length_cons, List.length_nil] at h8; omega
    rcases l with _ | ⟨b5, l⟩
    · simp only [List.length_cons, List.length_nil] at h8; omega
    rcases l with _ | ⟨b6, l⟩
    · simp only [List.length_cons, List.length_nil] at h8; omega
    rcases l with _ | ⟨b7, l⟩
    · simp only [List.length_cons, List.length_nil] at h8; omega
    rcases l with _ | ⟨b8, l⟩
    · simp only [List.length_cons, List.length_nil] at h8; omega
    have hgo : bytesOfBitsGo (b1 :: b2 :: b3 :: b4 :: b5 :: b6 :: b7 :: b8 :: l) =
        bitsToNat [b1, b2, b3, b4, b5, b6, b7, b8] :: bytesOfBitsGo l := rfl
    rw [hgo, bytes_to_bits_cons]
    have hhead : byteToBits (bitsToNat [b1, b2, b3, b4, b5, b6, b7, b8]) =
        [b1, b2, b3, b4, b5, b6, b7, b8] := by
      refine byteToBits_bitsToNat _ (by simp) ?_
      intro x hx
      refine hb x ?_
      simp only [List.mem_cons, List.not_mem_nil, or_false] at hx
      simp only [List.mem_cons]
      rcases hx with h | h | h | h | h | h | h | h <;> simp [h]
    rw [hhead]
    have hlen : l.length < n := by
      simp only [List.length_cons] at hn; omega
    have htail : bytes_to_bits (bytesOfBitsGo l) = l := by
      refine ih l.length hlen l rfl ?_ ?_
      · intro x hx; exact hb x (by simp [hx])
      · simp only [List.length_cons] at h8; omega
    rw [htail]
    rfl

/-! ### Claim C9: unpack is a pure inverse of pack up to padding -/

/-- C9: for every bit string `b`, unpacking the packed bytes gives back `b`
    followed by `(8 - len % 8) % 8` zero bits: between 0 and 7 of them,
    exactly enough to reach the next multiple of 8.  Bytes are formed and
    re-expanded most-significant-bit-first, so `bytes_to_bits` inverts
    `bits_to_bytes` except for the trailing padding. -/
theorem pack_unpack (b : List Char) (hb : ∀ x ∈ b, x = '0' ∨ x = '1') :
    bytes_to_bits (bits_to_bytes b) =
      b ++ List.replicate ((8 - b.length % 8) % 8) '0' ∧
    (8 - b.length % 8) % 8 ≤ 7 ∧
    (b.length + (8 - b.length % 8) % 8) % 8 = 0 := by
  refine ⟨?_, by omega, by omega⟩
  unfold bits_to_bytes
  refine bytes_to_bits_bytesOfBitsGo
    (b ++ List.replicate ((8 - b.length % 8) % 8) '0').length _ rfl ?_ ?_
  · intro x hx
    rcases List.mem_append.mp hx with h | h
    · exact hb x h
    · exact Or.inl (List.eq_of_mem_replicate h)
  · simp only [List.length_append, List.length_replicate]
    omega

theorem pack_unpack_witness :
    bytes_to_bits (bits_to_bytes ['1', '0', '1']) =
      ['1', '0', '1'] ++ List.replicate ((8 - ['1', '0', '1'].length % 8) % 8) '0' ∧
    (8 - ['1', '0', '1'].length % 8) % 8 ≤ 7 ∧
    (['1', '0', '1'].length + (8 - ['1', '0', '1'].length % 8) % 8) % 8 = 0 :=
  pack_unpack ['1', '0', '1'] (by decide)

/-! ### Basic lookup and table lemmas -/

theorem dictGet_mem {α β : Type} [DecidableEq α] {l : List (α × β)} {k : α} {v : β}
    (h : dictGet l k = some v) : (k, v) ∈ l := by
  induction l with
  | nil => exact absurd h (by simp [dictGet])
  | cons p rest ih =>
    obtain ⟨a, b⟩ := p
    by_cases hk : k = a
    · subst hk
      simp [dictGet] at h
      subst h
      exact List.mem_cons_self _ _
    · simp only [dictGet, if_neg hk] at h
      exact List.mem_cons_of_mem _ (ih h)

theorem dictGet_eq_none {α β : Type} [DecidableEq α] {l : List (α × β)} {k : α} :
    dictGet l k = none ↔ k ∉ l.map Prod.fst := by
  induction l with
  | nil => simp [dictGet]
  | cons p rest ih =>
    obtain ⟨a, b⟩ := p
    by_cases hk : k = a
    · subst hk; simp [dictGet]
    · simp [dictGet, hk, ih]

/-- Facts about the symbol table used throughout: every code has five bit
    characters and looking a code up in the reverse table recovers the
    character. -/
theorem table_facts :
    ∀ p ∈ BAUDOT_TABLE, p.2.length = 5 ∧ (∀ x ∈ p.2, x = '0' ∨ x = '1') ∧
      dictGet REVERSE_TABLE p.2 = some p.1 := by decide

/-! ### The sliding window -/

theorem stop_length : STOP_WORD.length = 4 := rfl

theorem win_of_le {l : List Char} (h : l.length ≤ 4) : win l = l := by
  have h0 : l.length - STOP_WORD.length = 0 := by rw [stop_length]; omega
  simp [win, h0]

theorem win_length (l : List Char) : (win l).length = l.length - (l.length - 4) := by
  simp [win, stop_length]

/-- The decoder's buffer update step computes the sliding window of the
    extended output. -/
theorem win_step (d : List Char) (c : Char) :
    (if STOP_WORD.length < (win d ++ [c]).length then
        (win d ++ [c]).drop ((win d ++ [c]).length - STOP_WORD.length)
      else win d ++ [c]) = win (d ++ [c]) := by
  by_cases h : d.length ≤ 3
  · rw [win_of_le (by omega)]
    have hcond : ¬ STOP_WORD.length < (d ++ [c]).length := by
      rw [stop_length]; simp; omega
    rw [if_neg hcond]
    exact (win_of_le (by simp; omega)).symm
  · have hwl : (win d).length = 4 := by rw [win_length]; omega
    have hcond : STOP_WORD.length < (win d ++ [c]).length := by
      rw [stop_length]; simp [hwl]
    rw [if_pos hcond]
    have hd1 : (win d ++ [c]).length - STOP_WORD.length = 1 := by
      rw [stop_length]; simp [hwl]
    rw [hd1, List.drop_append_of_le_length (by omega)]
    unfold win
    rw [List.drop_drop]
    have hlen2 : (d ++ [c]).length - STOP_WORD.length = d.length - STOP_WORD.length + 1 := by
      rw [stop_length]; simp; omega
    rw [hlen2, List.drop_append_of_le_length (by rw [stop_length]; omega)]

/-! ### Stepping the decode scan over one table code -/

/-- Reading one 5-bit code from the front of the bit stream performs exactly
    one character step of the scan. -/
theorem decodeLoop_code {c : Char} {code : List Char}
    (hc : dictGet BAUDOT_TABLE c = some code)
    (rest decoded stopBuf : List Char) :
    decodeLoop (code ++ rest) decoded stopBuf =
      if (if STOP_WORD.length < (stopBuf ++ [c]).length then
            (stopBuf ++ [c]).drop ((stopBuf ++ [c]).length - STOP_WORD.length)
          else stopBuf ++ [c]) = STOP_WORD then
        some ((decoded ++ [c]).take ((decoded ++ [c]).length - STOP_WORD.length))
      else
        decodeLoop rest (decoded ++ [c])
          (if STOP_WORD.length < (stopBuf ++ [c]).length then
            (stopBuf ++ [c]).drop ((stopBuf ++ [c]).length - STOP_WORD.length)
          else stopBuf ++ [c]) := by
  obtain ⟨hlen, -, hrev⟩ := table_facts (c, code) (dictGet_mem hc)
  rcases code with _ | ⟨k1, code⟩
  · simp only [List.length_nil] at hlen; omega
  rcases code with _ | ⟨k2, code⟩
  · simp only [List.length_cons, List.length_nil] at hlen; omega
  rcases code with _ | ⟨k3, code⟩
  · simp only [List.length_cons, List.length_nil] at hlen; omega
  rcases code with _ | ⟨k4, code⟩
  · simp only [List.length_cons, List.length_nil] at hlen; omega
  rcases code with _ | ⟨k5, code⟩
  · simp only [List.length_cons, List.length_nil] at hlen; omega
  rcases code with _ | ⟨k6, code⟩
  · simp only [List.cons_append, List.nil_append, decodeLoop]
    rw [hrev]
    rfl
  · simp only [List.length_cons, List.length_nil] at hlen; omega

/-! ### The scan over an encoded character sequence -/

/-- Scanning the concatenated codes of a message prepended to any residual
    bits either exits early at the first sliding-window match inside the
    message, or consumes the whole message and continues on the residue. -/
theorem decodeLoop_scan (m : List Char) : ∀ (bits rest decoded : List Char),
    encChars m = some bits →
    decodeLoop (bits ++ rest) decoded (win decoded) =
      (match findStop decoded m with
       | some res => some res
       | none => decodeLoop rest (decoded ++ m) (win (decoded ++ m))) := by
  induction m with
  | nil =>
    intro bits rest decoded he
    simp only [encChars, Option.some.injEq] at he
    subst he
    simp [findStop]
  | cons c cs ih =>
    intro bits rest decoded he
    rcases hc : dictGet BAUDOT_TABLE c with - | code
    · rw [encChars, hc] at he; simp at he
    rcases hm : encChars cs with - | tl
    · rw [encChars, hc, hm] at he; simp at he
    rw [encChars, hc, hm] at he
    simp only [Option.some.injEq] at he
    subst he
    rw [List.append_assoc, decodeLoop_code hc, win_step decoded c]
    by_cases hw : win (decoded ++ [c]) = STOP_WORD
    · rw [if_pos hw]
      simp [findStop, hw]
    · rw [if_neg hw, ih tl rest (decoded ++ [c]) hm]
      simp only [findStop, if_neg hw]
      rw [← List.append_cons]

/-! ### Substrings and the terminator -/

theorem isPrefixOf_ex : ∀ p l : List Char, p.isPrefixOf l = true ↔ ∃ t, p ++ t = l := by
  intro p
  induction p with
  | nil => intro l; simp [List.isPrefixOf]
  | cons a as ih =>
    intro l
    rcases l with - | ⟨b, bs⟩
    · simp [List.isPrefixOf]
    · simp only [List.isPrefixOf, Bool.and_eq_true, beq_iff_eq, ih]
      constructor
      · rintro ⟨rfl, t, rfl⟩
        exact ⟨t, rfl⟩
      · rintro ⟨t, h⟩
        rw [List.cons_append] at h
        injection h with h1 h2
        exact ⟨h1, t, h2⟩

theorem containsSub_iff (pat : List Char) : ∀ l : List Char,
    containsSub pat l = true ↔ ∃ u v, l = u ++ pat ++ v := by
  intro l
  induction l with
  | nil =>
    simp only [containsSub, List.isEmpty_iff]
    constructor
    · intro h; subst h; exact ⟨[], [], rfl⟩
    · rintro ⟨u, v, huv⟩
      rcases u with - | ⟨u0, u⟩
      · rcases pat with - | ⟨p0, p⟩
        · rfl
        · simp at huv
      · simp at huv
  | cons c rest ih =>
    simp only [containsSub, Bool.or_eq_true, ih, isPrefixOf_ex]
    constructor
    · rintro (⟨t, ht⟩ | ⟨u, v, rfl⟩)
      · exact ⟨[], t, by simp [← ht]⟩
      · exact ⟨c :: u, v, by simp⟩
    · rintro ⟨u, v, huv⟩
      rcases u with - | ⟨u0, u⟩
      · left
        rw [List.nil_append] at huv
        exact ⟨v, huv.symm⟩
      · right
        rw [List.cons_append, List.cons_append] at huv
        injection huv with h1 h2
        subst h1
        exact ⟨u, v, h2⟩

theorem containsSub_of_take {pat u l : List Char} {n : Nat} (h : l.take n = u ++ pat) :
    containsSub pat l = true := by
  rw [containsSub_iff]
  refine ⟨u, l.drop n, ?_⟩
  conv_lhs => rw [← List.take_append_drop n l]
  rw [h, List.append_assoc]

theorem containsSub_take {pat l : List Char} (n : Nat)
    (h : containsSub pat l = false) : containsSub pat (l.take n) = false := by
  by_contra hc
  rw [Bool.not_eq_false, containsSub_iff] at hc
  obtain ⟨u, v, huv⟩ := hc
  have htr : containsSub pat l = true := by
    rw [containsSub_iff]
    refine ⟨u, v ++ l.drop n, ?_⟩
    conv_lhs => rw [← List.take_append_drop n l]
    rw [huv]
    simp [List.append_assoc]
  rw [h] at htr
  exact absurd htr (by decide)

/-- A list whose sliding window is the terminator ends with the terminator. -/
theorem sfx_of_win {l : List Char} (h : win l = STOP_WORD) :
    ∃ u, u ++ STOP_WORD = l := by
  refine ⟨l.take (l.length - STOP_WORD.length), ?_⟩
  conv_rhs => rw [← List.take_append_drop (l.length - STOP_WORD.length) l]
  rw [show l.drop (l.length - STOP_WORD.length) = STOP_WORD from h]

/-- Conversely, the sliding window of a list ending with the terminator is
    the terminator. -/
theorem win_of_sfx {l : List Char} (h : ∃ u, u ++ STOP_WORD = l) :
    win l = STOP_WORD := by
  obtain ⟨u, rfl⟩ := h
  have hl : (u ++ STOP_WORD).length - STOP_WORD.length = u.length := by simp
  unfold win
  rw [hl, List.drop_left]

/-! ### Locating the first window match -/

/-- If the appended characters end with the terminator, the walk always
    finds a match. -/
theorem findStop_of_stop : ∀ m decoded : List Char, m ≠ [] →
    win (decoded ++ m) = STOP_WORD → ∃ res, findStop decoded m = some res := by
  intro m
  induction m with
  | nil => intro decoded h _; exact absurd rfl h
  | cons c cs ih =>
    intro decoded _ hw
    by_cases h1 : win (decoded ++ [c]) = STOP_WORD
    · refine ⟨(decoded ++ [c]).take ((decoded ++ [c]).length - STOP_WORD.length), ?_⟩
      rw [findStop, if_pos h1]
    · rcases cs with - | ⟨c2, cs2⟩
      · exact absurd hw h1
      · obtain ⟨res, hres⟩ :=
          ih (decoded ++ [c]) (by simp) (by rw [← List.append_cons]; exact hw)
        refine ⟨res, ?_⟩
        rw [findStop, if_neg h1]
        exact hres

/-- If no proper prefix of the appended characters produces a window match
    but the full list does, the walk returns everything up to the
    terminator. -/
theorem findStop_eq_of_first : ∀ m decoded : List Char, m ≠ [] →
    (∀ i, 1 ≤ i → i < m.length → win (decoded ++ m.take i) ≠ STOP_WORD) →
    win (decoded ++ m) = STOP_WORD →
    findStop decoded m =
      some ((decoded ++ m).take ((decoded ++ m).length - STOP_WORD.length)) := by
  intro m
  induction m with
  | nil => intro decoded h _ _; exact absurd rfl h
  | cons c cs ih =>
    intro decoded _ hno hw
    rcases cs with - | ⟨c2, cs2⟩
    · rw [findStop, if_pos hw]
    · have h1 : win (decoded ++ [c]) ≠ STOP_WORD := by
        have h2 := hno 1 (le_refl 1) (by simp)
        simpa using h2
      rw [findStop, if_neg h1]
      have hres := ih (decoded ++ [c]) (by simp) ?_ ?_
      · rw [hres, ← List.append_cons]
      · intro i hi1 hi2
        have h2 := hno (i + 1) (by omega)
          (by simp only [List.length_cons] at hi2 ⊢; omega)
        rw [List.take_succ_cons, List.append_cons] at h2
        exact h2
      · rw [← List.append_cons]
        exact hw

/-- If the terminator does not occur inside `s`, no proper prefix of
    `s ++ STOP_WORD` produces a window match. -/
theorem no_early_stop (s : List Char) (hs : containsSub STOP_WORD s = false) :
    ∀ i, 1 ≤ i → i < (s ++ STOP_WORD).length →
      win ((s ++ STOP_WORD).take i) ≠ STOP_WORD := by
  intro i h1 hi hcon
  have hlt : ((s ++ STOP_WORD).take i).length = i := by
    rw [List.length_take]
    simp only [List.length_append, stop_length] at hi ⊢
    omega
  have hi4 : 4 ≤ i := by
    have hlw := congrArg List.length hcon
    rw [win_length, hlt, stop_length] at hlw
    omega
  obtain ⟨u, hu⟩ := sfx_of_win hcon
  have hulen : u.length = i - 4 := by
    have hl2 := congrArg List.length hu
    rw [hlt] at hl2
    simp only [List.length_append, stop_length] at hl2
    omega
  by_cases hcase : i ≤ s.length
  · have ht2 : (s ++ STOP_WORD).take i = s.take i :=
      List.take_append_of_le_length hcase
    rw [ht2] at hu
    have : containsSub STOP_WORD s = true := containsSub_of_take hu.symm
    rw [hs] at this
    exact absurd this (by decide)
  · push_neg at hcase
    have hslen : (s ++ STOP_WORD).length = s.length + 4 := by
      simp [stop_length]
    have ht3 : (s ++ STOP_WORD).take i = s ++ STOP_WORD.take (i - s.length) := by
      rw [List.take_append_eq_append_take, List.take_of_length_le (by omega)]
    rw [ht3] at hu
    have step1 := congrArg (List.drop u.length) hu
    rw [List.drop_left, List.drop_append_of_le_length (by omega)] at step1
    have hsd : (s.drop u.length).length = 4 - (i - s.length) := by
      simp only [List.length_drop, hulen]
      omega
    have step2 := congrArg (List.drop (4 - (i - s.length))) step1.symm
    rw [List.drop_left' hsd] at step2
    have hk : i - s.length = 1 ∨ i - s.length = 2 ∨ i - s.length = 3 := by
      rw [hslen] at hi
      omega
    rcases hk with h | h | h <;> rw [h] at step2 <;> exact absurd step2 (by decide)

/-- With fewer than five bits left the scan gives up. -/
theorem decodeLoop_exhausted (bits decoded stopBuf : List Char) (h : bits.length < 5) :
    decodeLoop bits decoded stopBuf = none := by
  rcases bits with - | ⟨b1, bits⟩
  · rfl
  rcases bits with - | ⟨b2, bits⟩
  · rfl
  rcases bits with - | ⟨b3, bits⟩
  · rfl
  rcases bits with - | ⟨b4, bits⟩
  · rfl
  rcases bits with - | ⟨b5, bits⟩
  · rfl
  simp only [List.length_cons] at h
  omega

/-! ### Encoder lemmas -/

theorem encChars_append {a b x y : List Char}
    (ha : encChars a = some x) (hb : encChars b = some y) :
    encChars (a ++ b) = some (x ++ y) := by
  induction a generalizing x with
  | nil =>
    simp only [encChars, Option.some.injEq] at ha
    subst ha
    simpa using hb
  | cons c cs ih =>
    rcases hc : dictGet BAUDOT_TABLE c with - | code
    · rw [encChars, hc] at ha; simp at ha
    rcases hm : encChars cs with - | tl
    · rw [encChars, hc, hm] at ha; simp at ha
    rw [encChars, hc, hm] at ha
    simp only [Option.some.injEq] at ha
    subst ha
    rw [List.cons_append, encChars, hc, ih hm]
    simp [List.append_assoc]

theorem encChars_binary {m bits : List Char} (h : encChars m = some bits) :
    ∀ x ∈ bits, x = '0' ∨ x = '1' := by
  induction m generalizing bits with
  | nil =>
    simp only [encChars, Option.some.injEq] at h
    subst h
    simp
  | cons c cs ih =>
    rcases hc : dictGet BAUDOT_TABLE c with - | code
    · rw [encChars, hc] at h; simp at h
    rcases hm : encChars cs with - | tl
    · rw [encChars, hc, hm] at h; simp at h
    rw [encChars, hc, hm] at h
    simp only [Option.some.injEq] at h
    subst h
    intro x hx
    rcases List.mem_append.mp hx with hx | hx
    · exact (table_facts (c, code) (dictGet_mem hc)).2.1 x hx
    · exact ih hm x hx

theorem encChars_isSome {s : List Char}
    (h : ∀ c ∈ s, (dictGet BAUDOT_TABLE c).isSome = true) :
    ∃ bits, encChars s = some bits := by
  induction s with
  | nil => exact ⟨[], rfl⟩
  | cons c cs ih =>
    obtain ⟨code, hc⟩ := Option.isSome_iff_exists.mp (h c (by simp))
    obtain ⟨tl, htl⟩ := ih (fun d hd => h d (by simp [hd]))
    exact ⟨code ++ tl, by rw [encChars, hc, htl]⟩

/-- Decoding the artifact that the encoder produced runs the scan over the
    message-plus-terminator character sequence: the result is whatever the
    first-window-match walk returns, and the walk always returns a match. -/
theorem decode_encode {msg bits : List Char} {bytes : List Nat}
    (hm : encChars msg = some bits) (henc : encode_to_file msg = some bytes) :
    ∃ res, findStop [] (msg ++ STOP_WORD) = some res ∧
      decode_from_file bytes = some res := by
  obtain ⟨sb, hsb⟩ : ∃ sb, encChars STOP_WORD = some sb := ⟨_, rfl⟩
  rw [encode_to_file, hm, hsb] at henc
  simp only [Option.some.injEq] at henc
  subst henc
  have hfull : encChars (msg ++ STOP_WORD) = some (bits ++ sb) := encChars_append hm hsb
  have hbin : ∀ x ∈ bits ++ sb, x = '0' ∨ x = '1' := encChars_binary hfull
  obtain ⟨res, hres⟩ := findStop_of_stop (msg ++ STOP_WORD) [] (by simp [STOP_WORD])
    (by rw [List.nil_append]; exact win_of_sfx ⟨msg, rfl⟩)
  refine ⟨res, hres, ?_⟩
  rw [decode_from_file, (pack_unpack (bits ++ sb) hbin).1]
  have hscan := decodeLoop_scan (msg ++ STOP_WORD) (bits ++ sb)
    (List.replicate ((8 - (bits ++ sb).length % 8) % 8) '0') [] hfull
  rw [show win ([] : List Char) = [] from rfl] at hscan
  rw [hscan, hres]

/-! ### Claim C2: encode output always decodes successfully -/

/-- C2: for every message accepted by the encoder, the artifact it produces
    decodes successfully: the 5-bit sliding-window scan finds the terminator
    before the input is exhausted, so the decoder never reports the
    terminator-not-found outcome (`none`) on the encoder's own output. -/
theorem encode_always_decodes (msg : List Char) (bytes : List Nat)
    (henc : encode_to_file msg = some bytes) :
    ∃ m, decode_from_file bytes = some m := by
  rcases hm : encChars msg with - | bits
  · rw [encode_to_file, hm] at henc; simp at henc
  · obtain ⟨res, -, hdec⟩ := decode_encode hm henc
    exact ⟨res, hdec⟩

theorem encode_always_decodes_witness :
    ∃ m, decode_from_file [161, 139, 12, 88] = some m :=
  encode_always_decodes ['h', 'i'] [161, 139, 12, 88] (by decide)

/-! ### Claim C1, amended part: round trip away from the terminator -/

/-- C1 amended: for every string composed only of the symbol table's
    characters (lowercase letters, space, digits 1-3) that does not contain
    the terminator word `"stop"` as a substring, decoding the encoded
    artifact returns exactly the original string. -/
theorem roundtrip_no_stop (s : List Char)
    (hlegal : ∀ c ∈ s, (dictGet BAUDOT_TABLE c).isSome = true)
    (hstop : containsSub STOP_WORD s = false) :
    (encode_to_file s).bind decode_from_file = some s := by
  obtain ⟨bits, hbits⟩ := encChars_isSome hlegal
  obtain ⟨sb, hsb⟩ : ∃ sb, encChars STOP_WORD = some sb := ⟨_, rfl⟩
  have henc : encode_to_file s = some (bits_to_bytes (bits ++ sb)) := by
    rw [encode_to_file, hbits, hsb]
  obtain ⟨res, hres, hdec⟩ := decode_encode hbits henc
  have hfirst : findStop [] (s ++ STOP_WORD) =
      some ((([] : List Char) ++ (s ++ STOP_WORD)).take
        ((([] : List Char) ++ (s ++ STOP_WORD)).length - STOP_WORD.length)) := by
    refine findStop_eq_of_first (s ++ STOP_WORD) [] (by simp [STOP_WORD]) ?_ ?_
    · intro i h1 h2
      rw [List.nil_append]
      exact no_early_stop s hstop i h1 h2
    · rw [List.nil_append]
      exact win_of_sfx ⟨s, rfl⟩
  rw [List.nil_append] at hfirst
  have htake : (s ++ STOP_WORD).take ((s ++ STOP_WORD).length - STOP_WORD.length) = s := by
    have hl : (s ++ STOP_WORD).length - STOP_WORD.length = s.length := by simp
    rw [hl]
    exact List.take_left s STOP_WORD
  rw [htake] at hfirst
  rw [hfirst] at hres
  simp only [Option.some.injEq] at hres
  subst hres
  rw [henc]
  exact hdec

theorem roundtrip_no_stop_witness :
    (encode_to_file ['h', 'i', ' ', '2', 'u']).bind decode_from_file =
      some ['h', 'i', ' ', '2', 'u'] :=
  roundtrip_no_stop ['h', 'i', ' ', '2', 'u'] (by decide) (by decide)

/-! ### Claim C10: the returned message never contains the terminator -/

/-- The scan preserves the invariant that the accumulated output contains no
    terminator occurrence, and on success returns a message with none. -/
theorem decodeLoop_no_stop (n : Nat) : ∀ bits decoded m : List Char,
    bits.length = n →
    containsSub STOP_WORD decoded = false →
    decodeLoop bits decoded (win decoded) = some m →
    containsSub STOP_WORD m = false := by
  induction n using Nat.strong_induction_on with
  | _ n ih =>
    intro bits decoded m hn hinv hloop
    rcases bits with - | ⟨b1, bits⟩
    · rw [decodeLoop_exhausted _ _ _ (by simp)] at hloop
      exact Option.noConfusion hloop
    rcases bits with - | ⟨b2, bits⟩
    · rw [decodeLoop_exhausted _ _ _ (by simp)] at hloop
      exact Option.noConfusion hloop
    rcases bits with - | ⟨b3, bits⟩
    · rw [decodeLoop_exhausted _ _ _ (by simp)] at hloop
      exact Option.noConfusion hloop
    rcases bits with - | ⟨b4, bits⟩
    · rw [decodeLoop_exhausted _ _ _ (by simp)] at hloop
      exact Option.noConfusion hloop
    rcases bits with - | ⟨b5, bits⟩
    · rw [decodeLoop_exhausted _ _ _ (by simp)] at hloop
      exact Option.noConfusion hloop
    simp only [List.length_cons] at hn
    rcases hch : dictGet REVERSE_TABLE [b1, b2, b3, b4, b5] with - | c
    · rw [decodeLoop, hch] at hloop
      exact ih bits.length (by omega) bits decoded m rfl hinv hloop
    · rw [decodeLoop, hch] at hloop
      simp only at hloop
      rw [win_step decoded c] at hloop
      by_cases hw : win (decoded ++ [c]) = STOP_WORD
      · rw [if_pos hw] at hloop
        simp only [Option.some.injEq] at hloop
        subst hloop
        have hsz : (decoded ++ [c]).length - STOP_WORD.length ≤ decoded.length := by
          rw [stop_length]; simp
        rw [List.take_append_of_le_length hsz]
        exact containsSub_take _ hinv
      · rw [if_neg hw] at hloop
        have hinv2 : containsSub STOP_WORD (decoded ++ [c]) = false := by
          by_contra hc2
          rw [Bool.not_eq_false, containsSub_iff] at hc2
          obtain ⟨u, v, huv⟩ := hc2
          rcases v with - | ⟨v0, v⟩
          · rw [List.append_nil] at huv
            exact hw (win_of_sfx ⟨u, huv.symm⟩)
          · have hlen : u.length + STOP_WORD.length ≤ decoded.length := by
              have hL := congrArg List.length huv
              simp only [List.length_append, List.length_cons, List.length_nil,
                stop_length] at hL ⊢
              omega
            have htk := congrArg (List.take (u.length + STOP_WORD.length)) huv
            rw [List.take_append_of_le_length hlen,
              List.take_left' (by simp)] at htk
            have : containsSub STOP_WORD decoded = true := containsSub_of_take htk
            rw [hinv] at this
            exact absurd this (by decide)
        exact ih bits.length (by omega) bits (decoded ++ [c]) m rfl hinv2 hloop

/-- C10: whenever decoding terminates successfully, the returned message
    (accumulated characters with the terminator trimmed off, before any
    abbreviation reversal) never contains the terminator word as a
    substring: the first sliding-window match always ends the scan. -/
theorem decoded_message_no_stop (byteData : List Nat) (m : List Char)
    (h : decode_from_file byteData = some m) :
    containsSub STOP_WORD m = false := by
  rw [decode_from_file] at h
  exact decodeLoop_no_stop (bytes_to_bits byteData).length
    (bytes_to_bits byteData) [] m rfl (by decide) h

theorem decoded_message_no_stop_witness :
    containsSub STOP_WORD ['h', 'i'] = false :=
  decoded_message_no_stop [161, 139, 12, 88] ['h', 'i'] (by decide)

/-! ### Claim C5: the symbol table -/

/-- C5 counterexample: the claim says the symbol table is a bijection over
    exactly 27 entries, but `BAUDOT_TABLE` (26 letters, the space, and the
    digits 1-3) has 30 entries. -/
theorem baudot_table_not_27 : ¬ BAUDOT_TABLE.length = 27 := by decide

/-- C5 amended: the symbol table is a bijection over exactly 30 entries: it
    maps 30 characters, each to a distinct 5-bit code, no two characters
    share a code, and the reverse table is its exact inverse. -/
theorem baudot_table_bijection :
    BAUDOT_TABLE.length = 30 ∧
    (BAUDOT_TABLE.map Prod.fst).Nodup ∧
    (BAUDOT_TABLE.map Prod.snd).Nodup ∧
    (∀ p ∈ BAUDOT_TABLE, p.2.length = 5) ∧
    REVERSE_TABLE.length = 30 ∧
    (∀ p ∈ BAUDOT_TABLE, dictGet REVERSE_TABLE p.2 = some p.1) ∧
    (∀ q ∈ REVERSE_TABLE, dictGet BAUDOT_TABLE q.2 = some q.1) := by decide

theorem baudot_table_bijection_witness :
    dictGet REVERSE_TABLE ['0', '0', '0', '1', '1'] = some 'a' :=
  baudot_table_bijection.2.2.2.2.2.1 ('a', ['0', '0', '0', '1', '1']) (by decide)

/-! ### Claim C3: the "hello stop" scenario -/

/-- C3: encoding `"hello stop"` and then decoding the artifact returns
    exactly `"hello"`: the terminator is matched at its first occurrence
    (the literal `stop` inside the message) and the appended terminator is
    never reached.  The decoder is the src/1.5/1.53.py pipeline; the
    decompressor fails on the raw artifact and the shortcut dictionary is
    empty, as loaded when `abv.txt` is absent. -/
theorem hello_stop_scenario :
    (encode_to_file ['h', 'e', 'l', 'l', 'o', ' ', 's', 't', 'o', 'p']).bind
        (decode_from_file_v153 (fun _ => none) []) =
      some ['h', 'e', 'l', 'l', 'o'] := by decide

/-! ### Claim C1, counterexample part: round-trip fails on "stop" -/

/-- C1 counterexample: for the legal input `s = "stop"`, decoding the
    encoded artifact returns the empty message, not `s`: the first
    sliding-window match (the literal content) truncates everything. -/
theorem roundtrip_fails_on_stop :
    (encode_to_file ['s', 't', 'o', 'p']).bind decode_from_file = some [] ∧
    (encode_to_file ['s', 't', 'o', 'p']).bind decode_from_file ≠
      some ['s', 't', 'o', 'p'] := by decide

/-! ### Claim C7: empty artifact and all-or-nothing decode -/

/-- C7: a 0-byte artifact yields the terminator-not-found outcome (`none`,
    no exception, no partial output); more generally, whenever fewer than
    five bits remain without a terminator match the scan returns `none`,
    regardless of the characters already accumulated. -/
theorem decode_all_or_nothing :
    decode_from_file [] = none ∧
    ∀ bits decoded stopBuf : List Char, bits.length < 5 →
      decodeLoop bits decoded stopBuf = none := by
  refine ⟨rfl, ?_⟩
  intro bits decoded stopBuf h
  rcases bits with _ | ⟨b1, bits⟩
  · rfl
  rcases bits with _ | ⟨b2, bits⟩
  · rfl
  rcases bits with _ | ⟨b3, bits⟩
  · rfl
  rcases bits with _ | ⟨b4, bits⟩
  · rfl
  rcases bits with _ | ⟨b5, bits⟩
  · rfl
  simp only [List.length_cons] at h
  omega

theorem decode_all_or_nothing_witness :
    decode_from_file [] = none ∧ decodeLoop ['0', '1'] ['q'] [] = none :=
  ⟨decode_all_or_nothing.1, decode_all_or_nothing.2 ['0', '1'] ['q'] [] (by decide)⟩

/-! ### Claim C4: compression fallback -/

/-- C4: for a decompressor `dec` that inverts the compressor `comp` and
    fails on the raw packed artifact, decoding the compressed artifact and
    decoding the uncompressed artifact of the same encoded message return
    the same plain text: decode attempts decompression unconditionally and,
    on failure, falls back to treating the bytes as raw packed data, never
    hard-failing because decompression failed. -/
theorem compression_fallback
    (dec : List Nat → Option (List Nat)) (comp : List Nat → List Nat)
    (revShortcuts : List (List Char × List Char))
    (message : List Char) (artifact : List Nat)
    (_henc : build_encoded_bytes message = some artifact)
    (hdec : dec (comp artifact) = some artifact)
    (hraw : dec artifact = none) :
    decode_from_file_v153 dec revShortcuts (comp artifact) =
      decode_from_file_v153 dec revShortcuts artifact := by
  unfold decode_from_file_v153
  rw [hdec, hraw]

theorem compression_fallback_witness :
    decode_from_file_v153 (fun b => if b.head? = some 0 then some b.tail else none) []
        ((fun b => 0 :: b) [161, 139, 12, 88]) =
      decode_from_file_v153 (fun b => if b.head? = some 0 then some b.tail else none) []
        [161, 139, 12, 88] :=
  compression_fallback (fun b => if b.head? = some 0 then some b.tail else none)
    (fun b => 0 :: b) [] ['h', 'i'] [161, 139, 12, 88]
    (by decide) (by decide) (by decide)

/-! ### Validator lemmas -/

theorem takeWhile_all {p : Char → Bool} : ∀ l : List Char,
    (∀ x ∈ l, p x = true) → l.takeWhile p = l := by
  intro l
  induction l with
  | nil => intro _; rfl
  | cons a l ih =>
    intro hall
    rw [List.takeWhile_cons, if_pos (hall a (by simp))]
    rw [ih (fun x hx => hall x (by simp [hx]))]

theorem sinceNl_cons (c : Char) (X : List Char) :
    sinceNl (c :: X) =
      if '\n' ∈ X then sinceNl X else X.length + (if c = '\n' then 0 else 1) := by
  induction X using List.reverseRecOn with
  | nil =>
    simp only [List.not_mem_nil, if_false, List.length_nil, Nat.zero_add]
    by_cases hc : c = '\n'
    · subst hc
      simp [sinceNl]
    · rw [if_neg hc]
      simp [sinceNl, List.takeWhile_cons, hc]
  | append_singleton Y d ihY =>
    by_cases hd : d = '\n'
    · subst hd
      have hmem : '\n' ∈ Y ++ ['\n'] := by simp
      rw [if_pos hmem]
      simp [sinceNl, List.reverse_append, List.takeWhile_cons]
    · have hq : (decide (d ≠ '\n')) = true := by simp [hd]
      have hL : sinceNl (c :: (Y ++ [d])) = 1 + sinceNl (c :: Y) := by
        simp only [sinceNl, List.reverse_cons, List.reverse_append, List.reverse_nil,
          List.nil_append, List.cons_append, List.takeWhile_cons, hq, if_true,
          List.length_cons]
        omega
      have hR : sinceNl (Y ++ [d]) = 1 + sinceNl Y := by
        simp only [sinceNl, List.reverse_append, List.reverse_nil, List.reverse_cons,
          List.nil_append, List.cons_append, List.takeWhile_cons, hq, if_true,
          List.length_cons]
        omega
      have hmem : ('\n' ∈ Y ++ [d]) ↔ ('\n' ∈ Y) := by
        simp [hd, eq_comm]
      rw [hL, ihY]
      by_cases hy : '\n' ∈ Y
      · rw [if_pos hy, if_pos (hmem.mpr hy), hR]
      · rw [if_neg hy, if_neg (fun hx => hy (hmem.mp hx))]
        simp only [List.length_append, List.length_cons, List.length_nil]
        omega

theorem sinceNl_no_newline {X : List Char} (h : '\n' ∉ X) : sinceNl X = X.length := by
  unfold sinceNl
  rw [takeWhile_all X.reverse ?_]
  · simp
  · intro x hx
    simp only [decide_eq_true_eq]
    intro heq
    subst heq
    exact h (by simpa using hx)

/-- A record produced deeper in the text stays in the result when a
    non-newline character is prepended. -/
theorem validateGo_tail_mem {c : Char} (hc : ¬ c = '\n') {rest : List Char}
    {line col : Nat} {x : Nat × Nat × Char × String}
    (h : x ∈ validateGo rest line (col + 1)) :
    x ∈ validateGo (c :: rest) line col := by
  rw [validateGo, if_neg hc]
  split
  · exact List.mem_cons_of_mem _ h
  · split
    · exact List.mem_cons_of_mem _ h
    · exact h

/-- Every uppercase occurrence yields a record whose position is given by
    the newline count and the distance to the last newline, relative to the
    starting counters. -/
theorem validateGo_upper_mem : ∀ (text : List Char) (line col i : Nat)
    (h : i < text.length), (text.get ⟨i, h⟩).isUpper = true →
    (line + nlCount (text.take i),
     if '\n' ∈ text.take i then sinceNl (text.take i) + 1 else col + i,
     text.get ⟨i, h⟩, "Uppercase character not allowed") ∈ validateGo text line col := by
  intro text
  induction text with
  | nil => intro line col i h; exact absurd h (by simp)
  | cons c rest ih =>
    intro line col i h hup
    rcases i with - | j
    · have hc : ¬ c = '\n' := by
        intro heq
        rw [show (c :: rest).get ⟨0, h⟩ = c from rfl, heq] at hup
        exact absurd hup (by decide)
      have hup0 : c.isUpper = true := hup
      simp only [List.take_zero, nlCount, List.filter_nil, List.length_nil,
        Nat.add_zero, List.not_mem_nil, if_false]
      rw [validateGo, if_neg hc, if_pos hup0]
      exact List.mem_cons_self _ _
    · have h' : j < rest.length := by
        simp only [List.length_cons] at h
        omega
      have hup' : (rest.get ⟨j, h'⟩).isUpper = true := hup
      have hget : (c :: rest).get ⟨j + 1, h⟩ = rest.get ⟨j, h'⟩ := rfl
      rw [hget, List.take_succ_cons]
      by_cases hc : c = '\n'
      · subst hc
        have hmem := ih (line + 1) 1 j h' hup'
        have e1 : line + nlCount ('\n' :: rest.take j) =
            line + 1 + nlCount (rest.take j) := by
          simp only [nlCount, List.filter_cons]
          simp
          omega
        have e2 : (if '\n' ∈ '\n' :: rest.take j
              then sinceNl ('\n' :: rest.take j) + 1 else col + (j + 1)) =
            (if '\n' ∈ rest.take j then sinceNl (rest.take j) + 1 else 1 + j) := by
          rw [if_pos (by simp), sinceNl_cons]
          by_cases hy : '\n' ∈ rest.take j
          · rw [if_pos hy, if_pos hy]
          · rw [if_neg hy, if_neg hy, if_pos rfl]
            have hlt : (rest.take j).length = j := by
              rw [List.length_take]
              omega
            omega
        rw [e1, e2]
        exact hmem
      · have hmem := ih line (col + 1) j h' hup'
        have e1 : nlCount (c :: rest.take j) = nlCount (rest.take j) := by
          simp [nlCount, List.filter_cons, hc]
        have e2 : (if '\n' ∈ c :: rest.take j
              then sinceNl (c :: rest.take j) + 1 else col + (j + 1)) =
            (if '\n' ∈ rest.take j then sinceNl (rest.take j) + 1 else col + 1 + j) := by
          have hmm : ('\n' ∈ c :: rest.take j) ↔ ('\n' ∈ rest.take j) := by
            simp [eq_comm, hc]
          rw [sinceNl_cons]
          by_cases hy : '\n' ∈ rest.take j
          · rw [if_pos (hmm.mpr hy), if_pos hy, if_pos hy]
          · rw [if_neg (fun hx => hy (hmm.mp hx)), if_neg hy]
            omega
        rw [e1, e2]
        exact validateGo_tail_mem hc hmem

/-- No record ever reports a newline character. -/
theorem validateGo_ne_newline : ∀ (text : List Char) (line col : Nat)
    (r : Nat × Nat × Char × String), r ∈ validateGo text line col → r.2.2.1 ≠ '\n' := by
  intro text
  induction text with
  | nil => intro line col r hmem; exact absurd hmem (by simp [validateGo])
  | cons c rest ih =>
    intro line col r hmem
    rw [validateGo] at hmem
    by_cases hc : c = '\n'
    · rw [if_pos hc] at hmem
      exact ih _ _ r hmem
    · rw [if_neg hc] at hmem
      split at hmem
      · rcases List.mem_cons.mp hmem with rfl | hmem
        · exact hc
        · exact ih _ _ r hmem
      · split at hmem
        · rcases List.mem_cons.mp hmem with rfl | hmem
          · exact hc
          · exact ih _ _ r hmem
        · exact ih _ _ r hmem

/-! ### Claim C6: validator completeness for uppercase characters -/

/-- C6: for every input text containing an uppercase letter at position `i`,
    `validate_message` returns a non-empty list containing an
    `UppercaseNotAllowed` record at the exact 1-based line and column of
    that occurrence, where the column resets to 1 and the line increments on
    each newline, and a newline itself is never reported as an error. -/
theorem validator_uppercase (text : List Char) (i : Nat) (h : i < text.length)
    (hup : (text.get ⟨i, h⟩).isUpper = true) :
    validate_message text ≠ [] ∧
    (lineOf text i, colOf text i, text.get ⟨i, h⟩, "Uppercase character not allowed")
      ∈ validate_message text ∧
    ∀ r ∈ validate_message text, r.2.2.1 ≠ '\n' := by
  have hmem := validateGo_upper_mem text 1 1 i h hup
  have hcol : (if '\n' ∈ text.take i then sinceNl (text.take i) + 1 else 1 + i) =
      colOf text i := by
    unfold colOf
    by_cases hy : '\n' ∈ text.take i
    · rw [if_pos hy]
    · rw [if_neg hy, sinceNl_no_newline hy, List.length_take]
      omega
  rw [hcol] at hmem
  have hline : (1 : Nat) + nlCount (text.take i) = lineOf text i := rfl
  rw [hline] at hmem
  exact ⟨List.ne_nil_of_mem hmem, hmem, fun r hr => validateGo_ne_newline text 1 1 r hr⟩

theorem validator_uppercase_witness :
    validate_message ['a', 'B'] ≠ [] ∧
    (lineOf ['a', 'B'] 1, colOf ['a', 'B'] 1, 'B', "Uppercase character not allowed")
      ∈ validate_message ['a', 'B'] :=
  ⟨(validator_uppercase ['a', 'B'] 1 (by decide) (by decide)).1,
   (validator_uppercase ['a', 'B'] 1 (by decide) (by decide)).2.1⟩

/-! ### Abbreviation dictionary loading invariants -/

/-- Each line either leaves the dictionary unchanged or appends one entry
    that passed every check. -/
theorem processLine_cases (d : List (List Char × List Char)) (line : List Char) :
    processLine d line = d ∨
    (processLine d line =
        d ++ [(lineFull (strippedLine line), lineShort (strippedLine line))] ∧
      pyIsLower (lineFull (strippedLine line)) = true ∧
      pyIsLower (lineShort (strippedLine line)) = true ∧
      (∀ c ∈ lineFull (strippedLine line), (dictGet BAUDOT_TABLE c).isSome = true) ∧
      (∀ c ∈ lineShort (strippedLine line), (dictGet BAUDOT_TABLE c).isSome = true) ∧
      dictGet d (lineFull (strippedLine line)) = none ∧
      lineShort (strippedLine line) ∉ d.map Prod.snd) := by
  unfold processLine
  split
  · exact Or.inl rfl
  split
  · exact Or.inl rfl
  split
  · exact Or.inl rfl
  split
  · exact Or.inl rfl
  split
  · exact Or.inl rfl
  split
  · exact Or.inl rfl
  split
  · exact Or.inl rfl
  rename_i h1 h2 h3 h4 h5 h6 h7
  rw [not_not, Bool.and_eq_true] at h3
  rw [not_not, List.all_eq_true] at h4 h5
  have h6n : dictGet d (lineFull (strippedLine line)) = none := by
    rcases hopt : dictGet d (lineFull (strippedLine line)) with - | v
    · rfl
    · rw [hopt] at h6
      exact absurd h6 (by simp)
  exact Or.inr ⟨rfl, h3.1, h3.2, h4, h5, h6n, h7⟩

/-- Appending an entry that passed every check preserves the invariant. -/
theorem dictOK_append {d : List (List Char × List Char)}
    {e : List Char × List Char} (hd : dictOK d)
    (hlow1 : pyIsLower e.1 = true) (hlow2 : pyIsLower e.2 = true)
    (hleg1 : ∀ c ∈ e.1, (dictGet BAUDOT_TABLE c).isSome = true)
    (hleg2 : ∀ c ∈ e.2, (dictGet BAUDOT_TABLE c).isSome = true)
    (hkey : dictGet d e.1 = none) (hval : e.2 ∉ d.map Prod.snd) :
    dictOK (d ++ [e]) := by
  obtain ⟨hk, hv, hp⟩ := hd
  refine ⟨?_, ?_, ?_⟩
  · rw [List.map_append, List.nodup_append]
    refine ⟨hk, by simp, ?_⟩
    intro a ha hb
    simp only [List.map_cons, List.map_nil, List.mem_cons, List.not_mem_nil,
      or_false] at hb
    subst hb
    exact (dictGet_eq_none.mp hkey) ha
  · rw [List.map_append, List.nodup_append]
    refine ⟨hv, by simp, ?_⟩
    intro a ha hb
    simp only [List.map_cons, List.map_nil, List.mem_cons, List.not_mem_nil,
      or_false] at hb
    subst hb
    exact hval ha
  · intro p hp2
    rcases List.mem_append.mp hp2 with h | h
    · exact hp p h
    · simp only [List.mem_cons, List.not_mem_nil, or_false] at h
      subst h
      exact ⟨hlow1, hlow2, hleg1, hleg2⟩

theorem load_shortcuts_go (lines : List (List Char)) : ∀ d, dictOK d →
    dictOK (lines.foldl processLine d) := by
  induction lines with
  | nil => intro d hd; exact hd
  | cons l ls ih =>
    intro d hd
    rw [List.foldl_cons]
    refine ih _ ?_
    rcases processLine_cases d l with h | ⟨h, h1, h2, h3, h4, h5, h6⟩
    · rw [h]; exact hd
    · rw [h]; exact dictOK_append hd h1 h2 h3 h4 h5 h6

/-! ### Claim C8: abbreviation dictionary loading -/

/-- C8: loading the abbreviation dictionary never fails as a whole: every
    line either leaves the dictionary unchanged (a skipped line: empty,
    `'#'`-prefixed, without `'='`, a non-lowercase side, a character outside
    the symbol table, or a duplicate full word or shortcut — each reported
    with a printed line-numbered diagnostic while the loop continues) or
    appends exactly one entry, and the resulting dictionary has
    pairwise-distinct keys, pairwise-distinct values, and both sides of
    every entry lowercase and composed only of symbol-table characters. -/
theorem load_shortcuts_ok (lines : List (List Char)) :
    dictOK (load_shortcuts lines) ∧
    ∀ (d : List (List Char × List Char)) (line : List Char),
      processLine d line = d ∨ ∃ e, processLine d line = d ++ [e] := by
  constructor
  · exact load_shortcuts_go lines [] ⟨List.nodup_nil, List.nodup_nil, by simp⟩
  · intro d line
    rcases processLine_cases d line with h | ⟨h, -⟩
    · exact Or.inl h
    · exact Or.inr ⟨_, h⟩

theorem load_shortcuts_ok_witness :
    pyIsLower ['d', 'p', 'o'] = true ∧
    (processLine [] ['x'] = [] ∨ ∃ e, processLine [] ['x'] = [] ++ [e]) :=
  ⟨((load_shortcuts_ok
        [['d', 'i', 's', 'p', 'o', 's', 'e', '=', 'd', 'p', 'o']]).1.2.2
      (['d', 'i', 's', 'p', 'o', 's', 'e'], ['d', 'p', 'o']) (by decide)).2.1,
   (load_shortcuts_ok []).2 [] ['x']⟩
